import Mathlib

/-! Shallow embedding of the algorithmic core of the password-generator
repository (`src/index.js`): the password generator `generatePassword`
and the strength estimator `estimateStrength`, together with theorems
checking the specification's claims about them.

Modelling conventions:
* JavaScript strings of characters are modelled as `List Char` (for the
  fixed alphabets and working buffers) and `String` for the final result.
* The random source (`Math.random()` scaled by a bound `n` and floored,
  which yields a uniform integer in `[0, n)`) is modelled by a stream
  `g : Nat → Nat` of draws, the `k`-th draw with bound `n` being
  `g k % n`.  Every behaviour of the JavaScript corresponds to some
  stream `g`, and conversely (all draws in the program have a positive
  bound), so universally quantifying over `g` captures all runs.
* JavaScript numbers used as the requested length are modelled as `Int`
  (the code only compares with `0` and uses the value as a count).
* The floating-point computation `bits = length * Math.log2(poolSize)`
  followed by comparisons `bits > T` (for `T` among 80/60/40/20) is
  encoded exactly over the integers as `poolSize ^ length > 2 ^ T`,
  which is equivalent to the real-number comparison
  `length * logb 2 poolSize > T` whenever `poolSize > 0`
  (see `estimateStrength_matches_log_thresholds`). -/

namespace PasswordGenerator

/-- The lowercase alphabet, `LOWER` in the source. -/
def LOWER : List Char := "abcdefghijklmnopqrstuvwxyz".toList

/-- The uppercase alphabet, `UPPER` in the source. -/
def UPPER : List Char := "ABCDEFGHIJKLMNOPQRSTUVWXYZ".toList

/-- The digit alphabet, `NUMBERS` in the source. -/
def NUMBERS : List Char := "0123456789".toList

/-- The symbol alphabet, `SYMBOLS` in the source. -/
def SYMBOLS : List Char := "!@#$%^&*()-_=+[]\x7b\x7d;:,.<>/?".toList

/-- The visually-similar characters, `SIMILAR` in the source:
`0 O 1 l I | backtick apostrophe doublequote`. -/
def SIMILAR : List Char := "0O1lI|\x60\x27\x22".toList

/-- The settings record passed to `generatePassword` (the `options`
destructured at the top of the function). -/
structure Settings where
  length : Int
  includeLower : Bool
  includeUpper : Bool
  includeNumbers : Bool
  includeSymbols : Bool
  excludeSimilarChars : Bool
  guaranteeEachType : Bool

/-- `str.split('').filter(ch => !SIMILAR.includes(ch)).join('')`. -/
def filterSimilar (l : List Char) : List Char :=
  l.filter (fun ch => ! SIMILAR.contains ch)

/-- `Array.from(new Set(l))`: deduplication keeping first occurrences,
in insertion order, as a JavaScript `Set` does. -/
def dedupFirst (l : List Char) : List Char :=
  l.foldl (fun acc ch => if acc.contains ch then acc else acc ++ [ch]) []

/-- The `pools` array: enabled class alphabets in canonical order
(lower, upper, numbers, symbols). -/
def poolsOf (o : Settings) : List (List Char) :=
  (if o.includeLower then [LOWER] else []) ++
  (if o.includeUpper then [UPPER] else []) ++
  (if o.includeNumbers then [NUMBERS] else []) ++
  (if o.includeSymbols then [SYMBOLS] else [])

/-- The `allowed` string: the concatenation of the pools, similar-filtered
and deduplicated when `excludeSimilarChars`, with the fallback to the
unfiltered concatenation when the filtered pool is empty. -/
def allowedOf (o : Settings) : List Char :=
  let base := (poolsOf o).flatten
  let a1 := if o.excludeSimilarChars then dedupFirst (filterSimilar base) else base
  if a1.length = 0 then (poolsOf o).flatten else a1

/-- The per-class pool used by the guarantee loop: the class alphabet,
similar-filtered when `excludeSimilarChars` is set. -/
def classPool (ex : Bool) (pl : List Char) : List Char :=
  if ex then filterSimilar pl else pl

/-- The `guaranteeEachType` loop: for each pool (in order), if its
(possibly similar-filtered) alphabet is non-empty, append one randomly
chosen character from it.  `k` is the index of the next random draw;
the returned pair is the updated draw index and buffer. -/
def guaranteeLoop (g : Nat → Nat) (ex : Bool) :
    List (List Char) → Nat → List Char → Nat × List Char
  | [], k, chars => (k, chars)
  | pl :: rest, k, chars =>
    let poolStr := classPool ex pl
    if poolStr.length > 0 then
      guaranteeLoop g ex rest (k + 1)
        (chars ++ [poolStr.getD (g k % poolStr.length) default])
    else
      guaranteeLoop g ex rest k chars

/-- The fill loop: `while (passwordChars.length < length) push(allowed[idx])`.
The loop is given an explicit iteration budget `fuel` so that the
recursion is structural; every call site passes `fuel = len`, which
always suffices because each iteration appends one character
(`fillLoop_length` needs only `len ≤ chars.length + fuel`). -/
def fillLoop (g : Nat → Nat) (allowed : List Char) (len : Nat) :
    Nat → Nat → List Char → Nat × List Char
  | 0, k, chars => (k, chars)
  | fuel + 1, k, chars =>
    if chars.length < len then
      fillLoop g allowed len fuel (k + 1)
        (chars ++ [allowed.getD (g k % allowed.length) default])
    else
      (k, chars)

/-- The simultaneous swap `[a[i], a[j]] = [a[j], a[i]]` on a list. -/
def listSwap (l : List Char) (i j : Nat) : List Char :=
  (l.set i (l.getD j default)).set j (l.getD i default)

/-- The Fisher–Yates loop `for (i = n-1; i > 0; i--) swap(i, rand(i+1))`.
The second argument is the current loop index `i`. -/
def shuffleLoop (g : Nat → Nat) : Nat → Nat → List Char → Nat × List Char
  | k, 0, chars => (k, chars)
  | k, i + 1, chars => shuffleLoop g (k + 1) i (listSwap chars (i + 1) (g k % (i + 2)))

/-- The draw counter and `passwordChars` buffer right after the optional
`guaranteeEachType` phase (an empty buffer when the flag is off). -/
def seedOf (g : Nat → Nat) (o : Settings) : Nat × List Char :=
  if o.guaranteeEachType then guaranteeLoop g o.excludeSimilarChars (poolsOf o) 0 []
  else (0, [])

/-- The draw counter and `passwordChars` buffer after the fill loop
(just before the shuffle). -/
def filledOf (g : Nat → Nat) (o : Settings) : Nat × List Char :=
  fillLoop g (allowedOf o) o.length.toNat o.length.toNat (seedOf g o).1 (seedOf g o).2

/-- `generatePassword(options)` from `src/index.js`, parametrised by the
random draw stream `g`: early-outs for non-positive length and no
enabled class, then guarantee phase, fill loop, Fisher–Yates shuffle,
and truncation to the requested length. -/
def generatePassword (g : Nat → Nat) (o : Settings) : String :=
  if o.length ≤ 0 then "" else
  if (poolsOf o).length = 0 then "" else
  ((shuffleLoop g (filledOf g o).1 ((filledOf g o).2.length - 1)
      (filledOf g o).2).2.take o.length.toNat).asString

/-- The labels array of the estimator. -/
def labels : List String := ["Very weak", "Weak", "Okay", "Strong", "Very strong"]

/-- The character class of the symbol regex
`[!@#\$%\^&\*\(\)\-\_\=\+\[\]\{\};:,.<>\/\?]` in `estimateStrength`. -/
def SYMBOL_CLASS : List Char := "!@#$%^&*()-_=+[]\x7b\x7d;:,.<>/?".toList

/-- `poolSize` as accumulated by `estimateStrength`: +26 if a lowercase
letter occurs, +26 for uppercase, +10 for a digit, +32 for a symbol. -/
def poolSizeOf (pw : String) : Nat :=
  (if pw.data.any (fun c => decide ('a' ≤ c ∧ c ≤ 'z')) then 26 else 0) +
  (if pw.data.any (fun c => decide ('A' ≤ c ∧ c ≤ 'Z')) then 26 else 0) +
  (if pw.data.any (fun c => decide ('0' ≤ c ∧ c ≤ '9')) then 10 else 0) +
  (if pw.data.any (fun c => SYMBOL_CLASS.contains c) then 32 else 0)

/-- `estimateStrength(pw)` from `src/index.js`.  The floating-point
`bits = pw.length * Math.log2(poolSize)` and its threshold tests
`bits > T` are encoded exactly as `poolSize ^ pw.length > 2 ^ T`
(together with `poolSize > 0`, from `poolSize > 0 ? … : 0`); this is
equivalent to the real-number comparison, see
`estimateStrength_matches_log_thresholds`. -/
def estimateStrength (pw : String) : Nat × String :=
  if pw = "" then (0, "Too short")
  else
    let poolSize := poolSizeOf pw
    let score :=
      if 0 < poolSize ∧ 2 ^ 80 < poolSize ^ pw.length then 4
      else if 0 < poolSize ∧ 2 ^ 60 < poolSize ^ pw.length then 3
      else if 0 < poolSize ∧ 2 ^ 40 < poolSize ^ pw.length then 2
      else if 0 < poolSize ∧ 2 ^ 20 < poolSize ^ pw.length then 1
      else 0
    (score, labels.getD score "")

/-- The real-valued `bits` of the specification:
`length × log2(poolSize)`, or 0 if the pool size is 0. -/
noncomputable def bitsReal (pw : String) : ℝ :=
  if 0 < poolSizeOf pw then (pw.length : ℝ) * Real.logb 2 (poolSizeOf pw) else 0

/-- The score as the specification words it: the fixed thresholds
`>80→4, >60→3, >40→2, >20→1, else→0` applied to the real-valued bits. -/
noncomputable def scoreReal (pw : String) : Nat :=
  if 80 < bitsReal pw then 4
  else if 60 < bitsReal pw then 3
  else if 40 < bitsReal pw then 2
  else if 20 < bitsReal pw then 1
  else 0

/-! ### Helper lemmas about the embedded definitions -/

/-- Conversion between a joined character list and the resulting string. -/
lemma data_asString (l : List Char) : (List.asString l).data = l := rfl

/-- The length of the string built from a character list. -/
lemma length_asString (l : List Char) : (List.asString l).length = l.length := rfl

/-- An in-bounds `getD` produces an element of the list. -/
lemma getD_mem_of_lt {l : List Char} {n : Nat} (h : n < l.length) :
    l.getD n default ∈ l := by
  rw [List.getD_eq_getElem l default h]
  exact List.getElem_mem h

/-- Membership in the fold underlying `dedupFirst`. -/
lemma foldl_dedup_mem (c : Char) :
    ∀ (l acc : List Char),
      (c ∈ l.foldl (fun acc ch => if acc.contains ch then acc else acc ++ [ch]) acc ↔
        c ∈ acc ∨ c ∈ l)
  | [], acc => by simp
  | x :: xs, acc => by
    rw [List.foldl_cons, foldl_dedup_mem c xs]
    by_cases hx : acc.contains x
    · have hx' : x ∈ acc := by simpa using hx
      simp only [if_pos hx, List.mem_cons]
      constructor
      · rintro (h | h)
        · exact Or.inl h
        · exact Or.inr (Or.inr h)
      · rintro (h | rfl | h)
        · exact Or.inl h
        · exact Or.inl hx'
        · exact Or.inr h
    · simp only [if_neg hx, List.mem_append, List.mem_singleton, List.mem_cons]
      tauto

/-- `dedupFirst` preserves membership. -/
lemma mem_dedupFirst {c : Char} {l : List Char} : c ∈ dedupFirst l ↔ c ∈ l := by
  unfold dedupFirst
  rw [foldl_dedup_mem]
  simp

/-- Characters of `filterSimilar l` are characters of `l` outside `SIMILAR`. -/
lemma mem_filterSimilar {c : Char} {l : List Char} :
    c ∈ filterSimilar l ↔ c ∈ l ∧ c ∉ SIMILAR := by
  unfold filterSimilar
  rw [List.mem_filter]
  simp

/-- The members of `poolsOf o` are exactly the enabled class alphabets. -/
lemma mem_poolsOf {o : Settings} {pl : List Char} :
    pl ∈ poolsOf o ↔
      (o.includeLower = true ∧ pl = LOWER) ∨ (o.includeUpper = true ∧ pl = UPPER) ∨
      (o.includeNumbers = true ∧ pl = NUMBERS) ∨ (o.includeSymbols = true ∧ pl = SYMBOLS) := by
  rcases o with ⟨len, il, iu, inum, isym, ex, gu⟩
  cases il <;> cases iu <;> cases inum <;> cases isym <;>
    simp [poolsOf, or_assoc, List.mem_append]

/-- `poolsOf o` is empty exactly when all four class flags are off. -/
lemma poolsOf_eq_nil_iff {o : Settings} :
    poolsOf o = [] ↔
      (o.includeLower = false ∧ o.includeUpper = false ∧
       o.includeNumbers = false ∧ o.includeSymbols = false) := by
  rcases o with ⟨len, il, iu, inum, isym, ex, gu⟩
  cases il <;> cases iu <;> cases inum <;> cases isym <;> simp [poolsOf]

/-- Every class alphabet keeps at least one character after similar-filtering. -/
lemma classPool_ne_nil (ex : Bool) {pl : List Char}
    (h : pl = LOWER ∨ pl = UPPER ∨ pl = NUMBERS ∨ pl = SYMBOLS) :
    classPool ex pl ≠ [] := by
  cases ex <;> rcases h with rfl | rfl | rfl | rfl <;> decide

/-- The guarantee-loop pool is contained in the class alphabet. -/
lemma classPool_subset {ex : Bool} {pl : List Char} {c : Char}
    (h : c ∈ classPool ex pl) : c ∈ pl := by
  cases ex
  · simpa [classPool] using h
  · simp only [classPool, if_pos] at h
    exact (mem_filterSimilar.mp h).1

/-- The guarantee loop only appends: earlier buffer members persist. -/
lemma guaranteeLoop_mono (g : Nat → Nat) (ex : Bool) :
    ∀ (pools : List (List Char)) (k : Nat) (chars : List Char) (c : Char),
      c ∈ chars → c ∈ (guaranteeLoop g ex pools k chars).2
  | [], _, _, _, hc => hc
  | pl :: rest, k, chars, c, hc => by
    rw [guaranteeLoop]
    split
    · exact guaranteeLoop_mono g ex rest _ _ c (List.mem_append_left _ hc)
    · exact guaranteeLoop_mono g ex rest _ _ c hc

/-- Every character the guarantee loop adds comes from the (possibly
similar-filtered) pool of one of the classes it walked over. -/
lemma guaranteeLoop_mem (g : Nat → Nat) (ex : Bool) :
    ∀ (pools : List (List Char)) (k : Nat) (chars : List Char) (c : Char),
      c ∈ (guaranteeLoop g ex pools k chars).2 →
        c ∈ chars ∨ ∃ pl ∈ pools, c ∈ classPool ex pl
  | [], _, _, _, hc => Or.inl hc
  | pl :: rest, k, chars, c, hc => by
    rw [guaranteeLoop] at hc
    split at hc
    · rcases guaranteeLoop_mem g ex rest _ _ c hc with h | ⟨pl', hpl', hc'⟩
      · rcases List.mem_append.mp h with h | h
        · exact Or.inl h
        · refine Or.inr ⟨pl, List.mem_cons_self pl rest, ?_⟩
          rw [List.mem_singleton.mp h]
          refine getD_mem_of_lt (Nat.mod_lt _ ?_)
          omega
      · exact Or.inr ⟨pl', List.mem_cons_of_mem pl hpl', hc'⟩
    · rcases guaranteeLoop_mem g ex rest _ _ c hc with h | ⟨pl', hpl', hc'⟩
      · exact Or.inl h
      · exact Or.inr ⟨pl', List.mem_cons_of_mem pl hpl', hc'⟩

/-- For every walked-over class with non-empty (possibly filtered) pool,
the guarantee loop's output contains a character of that pool. -/
lemma guaranteeLoop_covers (g : Nat → Nat) (ex : Bool) :
    ∀ (pools : List (List Char)) (k : Nat) (chars : List Char) (pl : List Char),
      pl ∈ pools → classPool ex pl ≠ [] →
        ∃ c ∈ (guaranteeLoop g ex pools k chars).2, c ∈ classPool ex pl
  | [], _, _, _, hpl, _ => absurd hpl (List.not_mem_nil _)
  | pl0 :: rest, k, chars, pl, hpl, hne => by
    rcases List.mem_cons.mp hpl with rfl | hpl'
    · have hlen : 0 < (classPool ex pl).length := List.length_pos.mpr hne
      rw [guaranteeLoop]
      rw [if_pos hlen]
      refine ⟨(classPool ex pl).getD (g k % (classPool ex pl).length) default, ?_, ?_⟩
      · exact guaranteeLoop_mono g ex rest _ _ _
          (List.mem_append_right _ (List.mem_singleton_self _))
      · exact getD_mem_of_lt (Nat.mod_lt _ hlen)
    · rw [guaranteeLoop]
      split
      · exact guaranteeLoop_covers g ex rest _ _ pl hpl' hne
      · exact guaranteeLoop_covers g ex rest _ _ pl hpl' hne

/-- The guarantee loop appends at most one character per class. -/
lemma guaranteeLoop_length_le (g : Nat → Nat) (ex : Bool) :
    ∀ (pools : List (List Char)) (k : Nat) (chars : List Char),
      (guaranteeLoop g ex pools k chars).2.length ≤ chars.length + pools.length
  | [], _, _ => Nat.le_add_right _ _
  | pl :: rest, k, chars => by
    rw [guaranteeLoop]
    split
    · have h := guaranteeLoop_length_le g ex rest (k + 1)
        (chars ++ [(classPool ex pl).getD (g k % (classPool ex pl).length) default])
      simp only [List.length_append, List.length_singleton, List.length_cons,
        List.length_nil] at h ⊢
      omega
    · have h := guaranteeLoop_length_le g ex rest k chars
      simp only [List.length_cons]
      omega

/-- The fill loop only appends: earlier buffer members persist. -/
lemma fillLoop_mono (g : Nat → Nat) (allowed : List Char) (len : Nat) :
    ∀ (fuel k : Nat) (chars : List Char) (c : Char),
      c ∈ chars → c ∈ (fillLoop g allowed len fuel k chars).2
  | 0, _, _, _, hc => hc
  | fuel + 1, k, chars, c, hc => by
    rw [fillLoop]
    split
    · exact fillLoop_mono g allowed len fuel _ _ c (List.mem_append_left _ hc)
    · exact hc

/-- Every character the fill loop adds comes from `allowed`. -/
lemma fillLoop_mem (g : Nat → Nat) {allowed : List Char} (len : Nat)
    (hne : allowed ≠ []) :
    ∀ (fuel k : Nat) (chars : List Char) (c : Char),
      c ∈ (fillLoop g allowed len fuel k chars).2 → c ∈ chars ∨ c ∈ allowed
  | 0, _, _, _, hc => Or.inl hc
  | fuel + 1, k, chars, c, hc => by
    rw [fillLoop] at hc
    split at hc
    · rcases fillLoop_mem g len hne fuel _ _ c hc with h | h
      · rcases List.mem_append.mp h with h | h
        · exact Or.inl h
        · refine Or.inr ?_
          rw [List.mem_singleton.mp h]
          exact getD_mem_of_lt (Nat.mod_lt _ (List.length_pos.mpr hne))
      · exact Or.inr h
    · exact Or.inl hc

/-- With sufficient fuel, the fill loop stops exactly at the requested
length (`max` covers a buffer that already exceeds it). -/
lemma fillLoop_length (g : Nat → Nat) (allowed : List Char) (len : Nat) :
    ∀ (fuel k : Nat) (chars : List Char), len ≤ chars.length + fuel →
      (fillLoop g allowed len fuel k chars).2.length = max chars.length len
  | 0, _, chars, hfuel => by
    rw [fillLoop]
    dsimp only
    omega
  | fuel + 1, k, chars, hfuel => by
    rw [fillLoop]
    split
    · have h := fillLoop_length g allowed len fuel (k + 1)
        (chars ++ [allowed.getD (g k % allowed.length) default])
        (by simp only [List.length_append, List.length_singleton]; omega)
      simp only [List.length_append, List.length_singleton] at h
      omega
    · dsimp only
      omega

/-- Setting an in-bounds position exchanges the old entry's contribution
to a count for the new entry's. -/
lemma count_set_add (b a : Char) :
    ∀ (l : List Char) (n : Nat), n < l.length →
      (l.set n b).count a + (if l.getD n default = a then 1 else 0)
        = l.count a + (if b = a then 1 else 0)
  | [], n, h => by simp at h
  | x :: xs, 0, _ => by
    simp only [List.set_cons_zero, List.getD_cons_zero, List.count_cons, beq_iff_eq]
    split_ifs <;> omega
  | x :: xs, n + 1, h => by
    have ih := count_set_add b a xs n (by simpa using h)
    simp only [List.set_cons_succ, List.getD_cons_succ, List.count_cons, beq_iff_eq]
    split_ifs at ih ⊢ <;> omega

/-- The simultaneous swap of two in-bounds positions permutes the list. -/
lemma listSwap_perm {l : List Char} {i j : Nat}
    (hi : i < l.length) (hj : j < l.length) : List.Perm (listSwap l i j) l := by
  rw [List.perm_iff_count]
  intro a
  unfold listSwap
  have h1 := count_set_add (l.getD j default) a l i hi
  have hlen : j < (l.set i (l.getD j default)).length := by
    simpa using hj
  have h2 := count_set_add (l.getD i default) a (l.set i (l.getD j default)) j hlen
  have h3 : (l.set i (l.getD j default)).getD j default = l.getD j default := by
    by_cases hij : i = j
    · subst hij
      rw [List.getD_eq_getElem _ _ hlen]
      simp
    · rw [List.getD_eq_getElem _ _ hlen, List.getElem_set_ne hij]
      exact (List.getD_eq_getElem l default hj).symm
  rw [h3] at h2
  split_ifs at h1 h2 <;> omega

/-- Each Fisher–Yates iteration permutes the buffer, so the whole
shuffle loop does. -/
lemma shuffleLoop_perm (g : Nat → Nat) :
    ∀ (i k : Nat) (chars : List Char), i < chars.length →
      List.Perm (shuffleLoop g k i chars).2 chars
  | 0, _, chars, _ => by
    rw [shuffleLoop]
  | i + 1, k, chars, h => by
    rw [shuffleLoop]
    have hj : g k % (i + 2) < chars.length :=
      lt_of_lt_of_le (Nat.mod_lt _ (by omega)) (by omega)
    have hswap := listSwap_perm h hj
    have hlen : i < (listSwap chars (i + 1) (g k % (i + 2))).length := by
      rw [hswap.length_eq]
      omega
    exact (shuffleLoop_perm g i (k + 1) _ hlen).trans hswap

/-- The fallback when similar-filtering empties the pool never fires:
if any class is enabled, the filtered, deduplicated pool is non-empty;
consequently `allowed` is the branch-selected value and is non-empty. -/
lemma allowedOf_spec (o : Settings) (hp : poolsOf o ≠ []) :
    dedupFirst (filterSimilar (poolsOf o).flatten) ≠ [] ∧
    (poolsOf o).flatten ≠ [] ∧
    allowedOf o =
      (if o.excludeSimilarChars then dedupFirst (filterSimilar (poolsOf o).flatten)
       else (poolsOf o).flatten) := by
  obtain ⟨pl, hpl⟩ := List.exists_mem_of_ne_nil _ hp
  have h4 : pl = LOWER ∨ pl = UPPER ∨ pl = NUMBERS ∨ pl = SYMBOLS := by
    rcases mem_poolsOf.mp hpl with ⟨_, h⟩ | ⟨_, h⟩ | ⟨_, h⟩ | ⟨_, h⟩ <;> tauto
  have hfp : filterSimilar pl ≠ [] := by
    have := classPool_ne_nil true h4
    simpa [classPool] using this
  obtain ⟨ch, hch⟩ := List.exists_mem_of_ne_nil _ hfp
  have hch' := mem_filterSimilar.mp hch
  have hflat : ch ∈ (poolsOf o).flatten :=
    List.mem_flatten.mpr ⟨pl, hpl, hch'.1⟩
  have hbase : (poolsOf o).flatten ≠ [] := List.ne_nil_of_mem hflat
  have hfilter : ch ∈ filterSimilar (poolsOf o).flatten :=
    mem_filterSimilar.mpr ⟨hflat, hch'.2⟩
  have hdedup : dedupFirst (filterSimilar (poolsOf o).flatten) ≠ [] :=
    List.ne_nil_of_mem (mem_dedupFirst.mpr hfilter)
  have hlen0 : (dedupFirst (filterSimilar (poolsOf o).flatten)).length ≠ 0 := by
    simpa [List.length_eq_zero] using hdedup
  refine ⟨hdedup, hbase, ?_⟩
  unfold allowedOf
  cases hex : o.excludeSimilarChars <;> simp [hlen0]

/-- Whenever a class is enabled, the `allowed` pool is non-empty. -/
lemma allowedOf_ne_nil {o : Settings} (hp : poolsOf o ≠ []) : allowedOf o ≠ [] := by
  obtain ⟨hdedup, hbase, heq⟩ := allowedOf_spec o hp
  rw [heq]
  cases hex : o.excludeSimilarChars
  · simpa using hbase
  · simpa using hdedup

/-- Every character of the `allowed` pool belongs to one of the pools. -/
lemma allowedOf_subset {o : Settings} {c : Char} (hc : c ∈ allowedOf o) :
    ∃ pl ∈ poolsOf o, c ∈ pl := by
  have hc' : c ∈ (poolsOf o).flatten := by
    unfold allowedOf at hc
    dsimp only at hc
    split at hc
    · split at hc
      · exact hc
      · exact (mem_filterSimilar.mp (mem_dedupFirst.mp hc)).1
    · split at hc
      · exact hc
      · exact hc
  exact List.mem_flatten.mp hc'

/-- The guarantee phase appends at most one character per enabled class. -/
lemma seedOf_length_le (g : Nat → Nat) (o : Settings) :
    (seedOf g o).2.length ≤ (poolsOf o).length := by
  unfold seedOf
  split
  · have := guaranteeLoop_length_le g o.excludeSimilarChars (poolsOf o) 0 []
    simpa using this
  · simp

/-- Every seeded character comes from the (possibly similar-filtered)
pool of an enabled class. -/
lemma seedOf_mem {g : Nat → Nat} {o : Settings} {c : Char}
    (hc : c ∈ (seedOf g o).2) :
    ∃ pl ∈ poolsOf o, c ∈ classPool o.excludeSimilarChars pl := by
  unfold seedOf at hc
  split at hc
  · rcases guaranteeLoop_mem g _ (poolsOf o) 0 [] c hc with h | h
    · simp at h
    · exact h
  · simp at hc

/-- With `guaranteeEachType` on, the guarantee phase covers every
enabled class whose filtered pool is non-empty. -/
lemma seedOf_covers {g : Nat → Nat} {o : Settings}
    (hg : o.guaranteeEachType = true) {pl : List Char}
    (hpl : pl ∈ poolsOf o) (hne : classPool o.excludeSimilarChars pl ≠ []) :
    ∃ c ∈ (seedOf g o).2, c ∈ classPool o.excludeSimilarChars pl := by
  unfold seedOf
  rw [if_pos hg]
  exact guaranteeLoop_covers g _ (poolsOf o) 0 [] pl hpl hne

/-- The fill loop tops the buffer up to exactly the requested length. -/
lemma filledOf_length (g : Nat → Nat) (o : Settings) :
    (filledOf g o).2.length = max (seedOf g o).2.length o.length.toNat :=
  fillLoop_length g (allowedOf o) o.length.toNat o.length.toNat
    (seedOf g o).1 (seedOf g o).2 (Nat.le_add_left _ _)

/-- Every character of the filled buffer is a seeded character or a
character of the `allowed` pool. -/
lemma filledOf_mem {g : Nat → Nat} {o : Settings} (hp : poolsOf o ≠ [])
    {c : Char} (hc : c ∈ (filledOf g o).2) :
    c ∈ (seedOf g o).2 ∨ c ∈ allowedOf o :=
  fillLoop_mem g o.length.toNat (allowedOf_ne_nil hp) o.length.toNat
    (seedOf g o).1 (seedOf g o).2 c hc

/-- Seeded characters survive the fill loop. -/
lemma seedOf_subset_filledOf {g : Nat → Nat} {o : Settings} {c : Char}
    (hc : c ∈ (seedOf g o).2) : c ∈ (filledOf g o).2 :=
  fillLoop_mono g (allowedOf o) o.length.toNat o.length.toNat
    (seedOf g o).1 (seedOf g o).2 c hc

/-- On non-degenerate settings, `generatePassword` is the shuffled,
truncated fill buffer. -/
lemma generatePassword_eq (g : Nat → Nat) (o : Settings)
    (hlen : 0 < o.length) (hp : poolsOf o ≠ []) :
    generatePassword g o =
      ((shuffleLoop g (filledOf g o).1 ((filledOf g o).2.length - 1)
          (filledOf g o).2).2.take o.length.toNat).asString := by
  unfold generatePassword
  rw [if_neg (by omega), if_neg (by simpa [List.length_eq_zero] using hp)]

/-- On non-degenerate settings, the shuffled buffer is a permutation of
the filled buffer. -/
lemma shuffled_perm_filledOf (g : Nat → Nat) (o : Settings)
    (hlen : 0 < o.length) :
    List.Perm
      (shuffleLoop g (filledOf g o).1 ((filledOf g o).2.length - 1)
        (filledOf g o).2).2
      (filledOf g o).2 := by
  have hfl := filledOf_length g o
  have hpos : 0 < (filledOf g o).2.length := by omega
  exact shuffleLoop_perm g ((filledOf g o).2.length - 1) (filledOf g o).1
    (filledOf g o).2 (by omega)

/-- If some class flag is on, the pools list is non-empty. -/
lemma poolsOf_ne_nil_of_flag {o : Settings}
    (hcls : o.includeLower = true ∨ o.includeUpper = true ∨
            o.includeNumbers = true ∨ o.includeSymbols = true) :
    poolsOf o ≠ [] := by
  intro h
  rcases poolsOf_eq_nil_iff.mp h with ⟨e1, e2, e3, e4⟩
  rcases hcls with hc | hc | hc | hc <;> simp_all

/-! ### The claims -/

/-- C1: for every settings value with length `L > 0` and at least one of
the four class flags enabled, `generatePassword` returns a string whose
length is exactly `L` — including when `guaranteeEachType` is on and the
number of enabled classes exceeds `L`, since the final truncation keeps
the length at `L`. -/
theorem generatePassword_length_exact (g : Nat → Nat) (o : Settings)
    (hlen : 0 < o.length)
    (hcls : o.includeLower = true ∨ o.includeUpper = true ∨
            o.includeNumbers = true ∨ o.includeSymbols = true) :
    (generatePassword g o).length = o.length.toNat := by
  have hp : poolsOf o ≠ [] := poolsOf_ne_nil_of_flag hcls
  rw [generatePassword_eq g o hlen hp, length_asString, List.length_take,
    (shuffled_perm_filledOf g o hlen).length_eq, filledOf_length]
  omega

/-- Witness for C1 at a concrete input: twelve lowercase-only settings. -/
theorem generatePassword_length_exact_witness :
    (0 : Int) < (Settings.mk 12 true false false false false false).length ∧
    (generatePassword (fun _ => 0)
        (Settings.mk 12 true false false false false false)).length =
      (Settings.mk 12 true false false false false false).length.toNat :=
  ⟨by decide,
   generatePassword_length_exact (fun _ => 0)
     (Settings.mk 12 true false false false false false) (by decide) (Or.inl rfl)⟩

/-- C3: for every settings value with length ≤ 0, and for every settings
value with all four class flags off, `generatePassword` returns the
empty string (and, as a total function, never throws). -/
theorem generatePassword_degenerate_empty (g : Nat → Nat) (o : Settings)
    (h : o.length ≤ 0 ∨
      (o.includeLower = false ∧ o.includeUpper = false ∧
       o.includeNumbers = false ∧ o.includeSymbols = false)) :
    generatePassword g o = "" := by
  unfold generatePassword
  rcases h with h | h
  · rw [if_pos h]
  · by_cases hl : o.length ≤ 0
    · rw [if_pos hl]
    · rw [if_neg hl,
        if_pos (by simp [poolsOf_eq_nil_iff.mpr h] : (poolsOf o).length = 0)]

/-- Witness for C3 at a concrete input: all class flags off. -/
theorem generatePassword_degenerate_empty_witness :
    generatePassword (fun _ => 0)
      (Settings.mk 8 false false false false false false) = "" :=
  generatePassword_degenerate_empty (fun _ => 0)
    (Settings.mk 8 false false false false false false)
    (Or.inr ⟨rfl, rfl, rfl, rfl⟩)

/-- C9: every character of a generated password belongs to the alphabet
of some enabled class (so with only `includeLower` the result is drawn
from `a`–`z` alone). -/
theorem generatePassword_chars_from_enabled (g : Nat → Nat) (o : Settings)
    (hlen : 0 < o.length)
    (hcls : o.includeLower = true ∨ o.includeUpper = true ∨
            o.includeNumbers = true ∨ o.includeSymbols = true) :
    ∀ c ∈ (generatePassword g o).data,
      (o.includeLower = true ∧ c ∈ LOWER) ∨
      (o.includeUpper = true ∧ c ∈ UPPER) ∨
      (o.includeNumbers = true ∧ c ∈ NUMBERS) ∨
      (o.includeSymbols = true ∧ c ∈ SYMBOLS) := by
  have hp : poolsOf o ≠ [] := poolsOf_ne_nil_of_flag hcls
  intro c hc
  rw [generatePassword_eq g o hlen hp, data_asString] at hc
  have hc2 := (shuffled_perm_filledOf g o hlen).mem_iff.mp
    (List.take_subset _ _ hc)
  have hpl : ∃ pl ∈ poolsOf o, c ∈ pl := by
    rcases filledOf_mem hp hc2 with h | h
    · obtain ⟨pl, hpl, hcp⟩ := seedOf_mem h
      exact ⟨pl, hpl, classPool_subset hcp⟩
    · exact allowedOf_subset h
  obtain ⟨pl, hpl, hcpl⟩ := hpl
  rcases mem_poolsOf.mp hpl with ⟨hf, rfl⟩ | ⟨hf, rfl⟩ | ⟨hf, rfl⟩ | ⟨hf, rfl⟩
  · exact Or.inl ⟨hf, hcpl⟩
  · exact Or.inr (Or.inl ⟨hf, hcpl⟩)
  · exact Or.inr (Or.inr (Or.inl ⟨hf, hcpl⟩))
  · exact Or.inr (Or.inr (Or.inr ⟨hf, hcpl⟩))

/-- Witness for C9 at the spec's concrete scenario: length 12, only
lowercase enabled. -/
theorem generatePassword_chars_from_enabled_witness :
    (0 : Int) < (Settings.mk 12 true false false false false false).length ∧
    ∀ c ∈ (generatePassword (fun _ => 0)
        (Settings.mk 12 true false false false false false)).data,
      ((Settings.mk 12 true false false false false false).includeLower = true ∧
        c ∈ LOWER) ∨
      ((Settings.mk 12 true false false false false false).includeUpper = true ∧
        c ∈ UPPER) ∨
      ((Settings.mk 12 true false false false false false).includeNumbers = true ∧
        c ∈ NUMBERS) ∨
      ((Settings.mk 12 true false false false false false).includeSymbols = true ∧
        c ∈ SYMBOLS) :=
  ⟨by decide,
   generatePassword_chars_from_enabled (fun _ => 0)
     (Settings.mk 12 true false false false false false) (by decide) (Or.inl rfl)⟩

/-- C2: with `guaranteeEachType` on and enabled-class count at most the
requested length, the generated password contains at least one character
from each enabled class's (possibly similar-filtered) alphabet: the
seeded representatives survive the shuffle and the truncation. -/
theorem generatePassword_guarantee (g : Nat → Nat) (o : Settings)
    (hg : o.guaranteeEachType = true)
    (hCL : ((poolsOf o).length : Int) ≤ o.length) :
    ∀ pl ∈ poolsOf o,
      ∃ c ∈ (generatePassword g o).data, c ∈ classPool o.excludeSimilarChars pl := by
  intro pl hpl
  have hp : poolsOf o ≠ [] := List.ne_nil_of_mem hpl
  have hlen : 0 < o.length := by
    have h0 : 0 < (poolsOf o).length := List.length_pos.mpr hp
    omega
  have h4 : pl = LOWER ∨ pl = UPPER ∨ pl = NUMBERS ∨ pl = SYMBOLS := by
    rcases mem_poolsOf.mp hpl with ⟨_, h⟩ | ⟨_, h⟩ | ⟨_, h⟩ | ⟨_, h⟩ <;> tauto
  obtain ⟨c, hcs, hcp⟩ := seedOf_covers hg hpl (classPool_ne_nil _ h4)
  refine ⟨c, ?_, hcp⟩
  have hc2 : c ∈ (filledOf g o).2 := seedOf_subset_filledOf hcs
  have hc1 := (shuffled_perm_filledOf g o hlen).mem_iff.mpr hc2
  rw [generatePassword_eq g o hlen hp, data_asString]
  have hsl : (seedOf g o).2.length ≤ o.length.toNat := by
    have hle := seedOf_length_le g o
    omega
  have hfl := filledOf_length g o
  rw [List.take_of_length_le
    (by rw [(shuffled_perm_filledOf g o hlen).length_eq]; omega)]
  exact hc1

/-- Witness for C2 at a concrete input: all classes enabled, similar
characters excluded, length 8, checked for the lowercase class. -/
theorem generatePassword_guarantee_witness :
    (Settings.mk 8 true true true true true true).guaranteeEachType = true ∧
    ((poolsOf (Settings.mk 8 true true true true true true)).length : Int) ≤
      (Settings.mk 8 true true true true true true).length ∧
    ∃ c ∈ (generatePassword (fun _ => 0)
        (Settings.mk 8 true true true true true true)).data,
      c ∈ classPool (Settings.mk 8 true true true true true true).excludeSimilarChars
        LOWER :=
  ⟨rfl, by decide,
   generatePassword_guarantee (fun _ => 0)
     (Settings.mk 8 true true true true true true) rfl (by decide)
     LOWER (by decide)⟩

/-- C4: with `excludeSimilarChars` on, a positive length, at least one
enabled class and every enabled class's filtered alphabet non-empty
(which in fact always holds), the generated password contains no
character from `SIMILAR`: both the fill pool and the guaranteed seeds
are filtered. -/
theorem generatePassword_no_similar (g : Nat → Nat) (o : Settings)
    (hex : o.excludeSimilarChars = true) (hlen : 0 < o.length)
    (hcls : o.includeLower = true ∨ o.includeUpper = true ∨
            o.includeNumbers = true ∨ o.includeSymbols = true)
    (_hfp : ∀ pl ∈ poolsOf o, filterSimilar pl ≠ []) :
    ∀ c ∈ (generatePassword g o).data, c ∉ SIMILAR := by
  have hp : poolsOf o ≠ [] := poolsOf_ne_nil_of_flag hcls
  intro c hc
  rw [generatePassword_eq g o hlen hp, data_asString] at hc
  have hc2 := (shuffled_perm_filledOf g o hlen).mem_iff.mp
    (List.take_subset _ _ hc)
  rcases filledOf_mem hp hc2 with h | h
  · obtain ⟨pl, hpl, hcp⟩ := seedOf_mem h
    rw [hex] at hcp
    exact (mem_filterSimilar.mp (by simpa [classPool] using hcp)).2
  · have heq := (allowedOf_spec o hp).2.2
    rw [heq, if_pos hex] at h
    exact (mem_filterSimilar.mp (mem_dedupFirst.mp h)).2

/-- Witness for C4 at a concrete input: all classes enabled, similar
characters excluded, length 6. -/
theorem generatePassword_no_similar_witness :
    (Settings.mk 6 true true true true true false).excludeSimilarChars = true ∧
    ∀ c ∈ (generatePassword (fun _ => 0)
        (Settings.mk 6 true true true true true false)).data, c ∉ SIMILAR :=
  ⟨rfl,
   generatePassword_no_similar (fun _ => 0)
     (Settings.mk 6 true true true true true false) rfl (by decide)
     (Or.inl rfl) (by decide)⟩

/-- C10 (implicit): the over-filtering fallback
(`if (allowed.length === 0) allowed = pools.join('')`) is unreachable:
each fixed class alphabet keeps at least one character outside
`SIMILAR`, so whenever a class is enabled the filtered, deduplicated
pool is non-empty and `allowed` is always the branch-selected
(non-fallback) value. -/
theorem similar_fallback_unreachable :
    (filterSimilar LOWER ≠ [] ∧ filterSimilar UPPER ≠ [] ∧
     filterSimilar NUMBERS ≠ [] ∧ filterSimilar SYMBOLS ≠ []) ∧
    ∀ o : Settings, poolsOf o ≠ [] →
      dedupFirst (filterSimilar (poolsOf o).flatten) ≠ [] ∧
      allowedOf o =
        (if o.excludeSimilarChars then dedupFirst (filterSimilar (poolsOf o).flatten)
         else (poolsOf o).flatten) := by
  refine ⟨by decide, fun o hp => ?_⟩
  obtain ⟨h1, _, h3⟩ := allowedOf_spec o hp
  exact ⟨h1, h3⟩

/-- Witness for C10 at a concrete input: lowercase and symbols enabled
with similar-character exclusion on. -/
theorem similar_fallback_unreachable_witness :
    poolsOf (Settings.mk 5 true false false true true false) ≠ [] ∧
    (dedupFirst (filterSimilar
        (poolsOf (Settings.mk 5 true false false true true false)).flatten) ≠ [] ∧
     allowedOf (Settings.mk 5 true false false true true false) =
       (if (Settings.mk 5 true false false true true false).excludeSimilarChars then
          dedupFirst (filterSimilar
            (poolsOf (Settings.mk 5 true false false true true false)).flatten)
        else (poolsOf (Settings.mk 5 true false false true true false)).flatten)) :=
  ⟨by decide,
   similar_fallback_unreachable.2 (Settings.mk 5 true false false true true false)
     (by decide)⟩

/-- Bridge between the estimator's exact integer threshold tests and the
real-number `length × log2(poolSize) > T` comparison. -/
lemma pow_threshold_iff (p len T : Nat) (hp : 0 < p) :
    ((T : ℝ) < (len : ℝ) * Real.logb 2 (p : ℝ)) ↔ 2 ^ T < p ^ len := by
  have hplen : (0 : ℝ) < (p : ℝ) ^ len := by positivity
  rw [← Real.logb_pow 2 (p : ℝ) len,
    Real.lt_logb_iff_rpow_lt (by norm_num) hplen, Real.rpow_natCast]
  exact_mod_cast Iff.rfl

/-- Each threshold test on the real-valued bits coincides with the
estimator's integer encoding. -/
lemma bitsReal_gt_iff (pw : String) (T : Nat) :
    ((T : ℝ) < bitsReal pw) ↔
      (0 < poolSizeOf pw ∧ 2 ^ T < poolSizeOf pw ^ pw.length) := by
  unfold bitsReal
  split
  case isTrue hp =>
    rw [pow_threshold_iff _ _ _ hp]
    simp [hp]
  case isFalse hp =>
    constructor
    · intro h
      exact absurd h (not_lt.mpr (Nat.cast_nonneg T))
    · rintro ⟨h0, _⟩
      exact absurd h0 hp

/-- On non-empty input the estimator's label is the score-indexed entry
of the label list. -/
lemma estimateStrength_label_eq (pw : String) (h : pw ≠ "") :
    (estimateStrength pw).2 = labels.getD (estimateStrength pw).1 "" := by
  unfold estimateStrength
  rw [if_neg h]

/-- C5: for every non-empty password, the estimator's score is exactly
the spec's `bits = length × log2(poolSize)` (0 when the pool is empty)
mapped through the fixed thresholds `>80→4, >60→3, >40→2, >20→1,
else→0`, with the label the score-indexed entry; and the spec's two
concrete scenarios evaluate to score 2 "Okay" and score 3 "Strong". -/
theorem estimateStrength_matches_log_thresholds :
    (∀ pw : String, pw ≠ "" →
      (estimateStrength pw).1 = scoreReal pw ∧
      (estimateStrength pw).2 = labels.getD (scoreReal pw) "") ∧
    estimateStrength "aaaaaaaaaaaa" = (2, "Okay") ∧
    estimateStrength "aA1!aA1!aA1!" = (3, "Strong") := by
  refine ⟨fun pw hpw => ?_, by decide, by decide⟩
  have h80 : ((80 : ℝ) < bitsReal pw) ↔
      (0 < poolSizeOf pw ∧ 2 ^ 80 < poolSizeOf pw ^ pw.length) := by
    exact_mod_cast bitsReal_gt_iff pw 80
  have h60 : ((60 : ℝ) < bitsReal pw) ↔
      (0 < poolSizeOf pw ∧ 2 ^ 60 < poolSizeOf pw ^ pw.length) := by
    exact_mod_cast bitsReal_gt_iff pw 60
  have h40 : ((40 : ℝ) < bitsReal pw) ↔
      (0 < poolSizeOf pw ∧ 2 ^ 40 < poolSizeOf pw ^ pw.length) := by
    exact_mod_cast bitsReal_gt_iff pw 40
  have h20 : ((20 : ℝ) < bitsReal pw) ↔
      (0 < poolSizeOf pw ∧ 2 ^ 20 < poolSizeOf pw ^ pw.length) := by
    exact_mod_cast bitsReal_gt_iff pw 20
  have hscore : (estimateStrength pw).1 = scoreReal pw := by
    unfold estimateStrength scoreReal
    rw [if_neg hpw]
    simp only [h80, h60, h40, h20]
  exact ⟨hscore, by rw [estimateStrength_label_eq pw hpw, hscore]⟩

/-- Witness for C5 at a concrete non-empty input. -/
theorem estimateStrength_matches_log_thresholds_witness :
    ("abc" : String) ≠ "" ∧
    ((estimateStrength "abc").1 = scoreReal "abc" ∧
     (estimateStrength "abc").2 = labels.getD (scoreReal "abc") "") :=
  ⟨by decide, estimateStrength_matches_log_thresholds.1 "abc" (by decide)⟩

/-- C6: the empty (falsy) input yields exactly score 0 with label
"Too short". -/
theorem estimateStrength_empty_input : estimateStrength "" = (0, "Too short") := rfl

/-- C7: the estimator is total and never fails: for every string the
score is at most 4 (hence an integer in 0–4) and the label is the
score-indexed entry of the fixed label list, or "Too short" for the
empty string. -/
theorem estimateStrength_total_range (pw : String) :
    (estimateStrength pw).1 ≤ 4 ∧
    (estimateStrength pw).2 =
      (if pw = "" then "Too short" else labels.getD (estimateStrength pw).1 "") := by
  by_cases h : pw = ""
  · subst h
    exact ⟨by decide, by decide⟩
  · refine ⟨?_, by rw [if_neg h]; exact estimateStrength_label_eq pw h⟩
    unfold estimateStrength
    rw [if_neg h]
    dsimp only
    split_ifs <;> omega

/-- C8: the estimator is deterministic — it is a pure function of the
input string alone, so equal inputs always yield equal score and
label. -/
theorem estimateStrength_deterministic (pw1 pw2 : String) (h : pw1 = pw2) :
    estimateStrength pw1 = estimateStrength pw2 := by
  rw [h]

/-- Witness for C8 at a concrete pair of equal inputs. -/
theorem estimateStrength_deterministic_witness :
    ("xY9" : String) = "xY9" ∧ estimateStrength "xY9" = estimateStrength "xY9" :=
  ⟨rfl, estimateStrength_deterministic "xY9" "xY9" rfl⟩

end PasswordGenerator
